import Mathlib

/-!
Verification of the Wordle-style word-game engine in `streamlit_app.py`:
the guess evaluator `evaluate_guess`, the keyboard aggregator
`update_key_statuses`, and the round state machine
(`wordle_commit_guess` / `wordle_handle_keypress`).

Strings are modelled as `List Char`.  Python operations used by the code
(`str.upper`, `str.lower`, `str.strip`, `str.isalpha`) are modelled for
ASCII text, which is the alphabet the game operates over (A–Z).
A Python function that can raise an uncaught exception (an `IndexError`
from list indexing) is modelled as returning `Option`.
-/

set_option maxHeartbeats 1000000

namespace Wordle

/-- The three per-letter verdicts plus the keyboard-only default
`unused` (the strings "correct" / "present" / "absent" / "unused" in the
Python source). -/
inductive Status where
  | correct
  | present
  | absent
  | unused
deriving DecidableEq, Repr

/-- `WORD_LENGTH = 5` in the source. -/
def WORD_LENGTH : Nat := 5

/-- `MAX_GUESSES = 6` in the source. -/
def MAX_GUESSES : Nat := 6

/-- `SOLUTION_WORDS` from the source. -/
def SOLUTION_WORDS : List (List Char) :=
  ["CRANE", "SLATE", "TRACE", "ROAST", "SHARE", "POINT", "MIGHT", "SOUND", "HEART", "WATER",
   "SMILE", "BRICK", "PLANT", "GRACE", "CHOIR", "GHOST", "CLOUD", "NURSE", "WORLD", "STORY",
   "HOUSE", "LIGHT", "NIGHT", "PARTY", "GREEN", "BLACK", "WHITE", "BROWN", "LEMON", "BERRY",
   "FAITH", "MOVIE", "MONEY", "PIZZA", "CANDY", "SUGAR", "SWEET", "SALAD", "BREAD", "PASTA"
  ].map String.data

/-- `VALID_GUESSES = set(SOLUTION_WORDS)`: only membership is ever used,
so the underlying list stands in for the set. -/
def VALID_GUESSES : List (List Char) := SOLUTION_WORDS

/-- `PRIORITY = {"correct": 3, "present": 2, "absent": 1, "unused": 0}`. -/
def priority : Status → Nat
  | .correct => 3
  | .present => 2
  | .absent => 1
  | .unused => 0

/-- Python `str.upper` on an ASCII string (`Char.toUpper` is exactly
CPython's per-character ASCII uppercase map). -/
def pyUpper (s : List Char) : List Char := s.map Char.toUpper

/-- Python `str.lower` on an ASCII string (`Char.toLower` is exactly
CPython's per-character ASCII lowercase map). -/
def pyLower (s : List Char) : List Char := s.map Char.toLower

/-- ASCII whitespace, as stripped by Python `str.strip()`. -/
def isSpaceChar (c : Char) : Bool :=
  c = ' ' || c = '\t' || c = '\n' || c = '\x0d' || c = '\x0b' || c = '\x0c'

/-- Python `str.strip()` on an ASCII string: remove leading and trailing
whitespace. -/
def pyStrip (s : List Char) : List Char :=
  ((s.dropWhile isSpaceChar).reverse.dropWhile isSpaceChar).reverse

/-- One ASCII letter. -/
def isAlphaChar (c : Char) : Bool :=
  ('A' ≤ c && c ≤ 'Z') || ('a' ≤ c && c ≤ 'z')

/-- One uppercase ASCII letter. -/
def isUpperChar (c : Char) : Bool := 'A' ≤ c && c ≤ 'Z'

/-- Python `str.isalpha()` on an ASCII string: nonempty and all letters. -/
def pyIsAlpha (s : List Char) : Bool := !s.isEmpty && s.all isAlphaChar

/-- `answer_chars[answer_chars.index(g)] = None`: blank out the first
not-yet-consumed occurrence of `g` (a `None` entry never equals a
character, exactly as in Python). -/
def consumeFirst (rem : List (Option Char)) (g : Char) : List (Option Char) :=
  match rem with
  | [] => []
  | x :: xs => if x = some g then none :: xs else x :: consumeFirst xs g

/-- The "Greens" loop of `evaluate_guess`: walking the guess and the
answer in lockstep, a position where they agree becomes `correct` and
its answer letter is blanked to `None`; any other position starts as
`absent` (the initial value of `result`) and keeps its answer letter. -/
def greens : List Char → List Char → List Status × List (Option Char)
  | g :: gs, a :: as =>
      let rest := greens gs as
      if g = a then (.correct :: rest.1, none :: rest.2)
      else (.absent :: rest.1, some a :: rest.2)
  | _, _ => ([], [])

/-- The "Yellows" loop of `evaluate_guess`: positions already `correct`
are skipped; otherwise, if the guess letter is still present among the
unconsumed answer letters, the position becomes `present` and the first
such occurrence (left to right) is consumed; otherwise it stays
`absent`. -/
def yellows : List Char → List Status → List (Option Char) → List Status
  | g :: gs, v :: vs, rem =>
      if v = .correct then v :: yellows gs vs rem
      else if (some g) ∈ rem then .present :: yellows gs vs (consumeFirst rem g)
      else v :: yellows gs vs rem
  | _, _, _ => []

/-- `evaluate_guess(guess, answer)` from the source.  Both loops run over
`range(WORD_LENGTH)`, so indexing raises `IndexError` — modelled as
`none` — exactly when either (uppercased) argument is shorter than
`WORD_LENGTH`.  Guess characters past `WORD_LENGTH` are never read, but
`answer_chars = list(answer)` keeps the whole answer: every answer
character beyond the greens prefix stays in the pool, unconsumed, and
is scanned by the `in`/`index` tests of the yellows loop. -/
def evaluate_guess (guess answer : List Char) : Option (List Status) :=
  let g := pyUpper guess
  let a := pyUpper answer
  if g.length < WORD_LENGTH ∨ a.length < WORD_LENGTH then none
  else
    let fstPass := greens (g.take WORD_LENGTH) (a.take WORD_LENGTH)
    let pool := fstPass.2 ++ (a.drop WORD_LENGTH).map some
    some (yellows (g.take WORD_LENGTH) fstPass.1 pool)

/-- One iteration of the loop in `update_key_statuses`: the dict update
`new[ch] = stt` guarded by `PRIORITY[stt] > PRIORITY[prev]`, with
`new.get(ch, "unused")` modelled by a total map defaulting to
`unused`. -/
def updOne (ks : Char → Status) (p : Char × Status) : Char → Status :=
  fun c => if c = p.1 ∧ priority (ks p.1) < priority p.2 then p.2 else ks c

/-- `update_key_statuses(key_status, guess, statuses)` from the source:
fold the zipped (letter, verdict) pairs over the dict, keeping for each
letter the highest-priority verdict seen. -/
def update_key_statuses (ks : Char → Status) (guess : List Char)
    (statuses : List Status) : Char → Status :=
  (guess.zip statuses).foldl updOne ks

/-- The Wordle-round slice of `st.session_state` (keys
`wordle::answer`, `wordle::guesses`, `wordle::feedback`,
`wordle::current`, `wordle::key_status`, `wordle::game_over`,
`wordle::won`, `wordle::error`, `wordle::strict`, `wordle::text_rev`). -/
structure WState where
  answer : List Char
  guesses : List (List Char)
  feedback : List (List Status)
  current : List Char
  key_status : Char → Status
  game_over : Bool
  won : Bool
  error : String
  strict : Bool
  text_rev : Nat

/-- `is_english_word(guess)` from the source.  The external `wordfreq`
dependency is the injected predicate `zipfOk` (standing for
`zipf_frequency(g, "en") >= 2.0`), available only when `wfAvail`
(`WORDFREQ_AVAILABLE`) holds; without it the fallback is membership in
`VALID_GUESSES`. -/
def is_english_word (wfAvail : Bool) (zipfOk : List Char → Bool)
    (guess : List Char) : Bool :=
  let g := pyLower guess
  if !(pyIsAlpha g) || g.length ≠ WORD_LENGTH then false
  else if wfAvail then zipfOk g
  else VALID_GUESSES.contains (pyUpper g)

/-- `wordle_commit_guess()` from the source, as a function of the round
state.  `none` models an uncaught exception escaping the function (only
possible if the stored answer is shorter than `WORD_LENGTH`); every
normal path returns `some` of the updated state. -/
def wordle_commit_guess (wfAvail : Bool) (zipfOk : List Char → Bool)
    (s : WState) : Option WState :=
  if s.game_over then some s
  else
    let guess := pyUpper (pyStrip s.current)
    if guess.length ≠ WORD_LENGTH then some { s with error := "Not enough letters." }
    else if !(pyIsAlpha guess) then some { s with error := "Only letters A–Z." }
    else if s.strict && !(is_english_word wfAvail zipfOk guess) then
      some { s with error :=
        if wfAvail then "Not a valid English word."
        else "Install wordfreq to validate English words (pip install wordfreq)." }
    else
      let s1 := { s with error := "" }
      match evaluate_guess guess s1.answer with
      | none => none
      | some statuses =>
        let s2 := { s1 with
          guesses := s1.guesses ++ [guess],
          feedback := s1.feedback ++ [statuses],
          key_status := update_key_statuses s1.key_status guess statuses,
          current := [],
          text_rev := s1.text_rev + 1 }
        if guess = s2.answer then some { s2 with game_over := true, won := true }
        else if MAX_GUESSES ≤ s2.guesses.length then
          some { s2 with game_over := true, won := false }
        else some s2

/-- `wordle_handle_keypress(key)` from the source: dispatches to
`wordle_commit_guess` on `"ENTER"`, drops the last input character on
`"⌫"`, appends a single alphabetic key (uppercased) while the input is
below `WORD_LENGTH`, and otherwise does nothing. -/
def wordle_handle_keypress (wfAvail : Bool) (zipfOk : List Char → Bool)
    (key : List Char) (s : WState) : Option WState :=
  if s.game_over then some s
  else if key = "ENTER".data then wordle_commit_guess wfAvail zipfOk s
  else if key = "⌫".data then
    some { s with current := s.current.dropLast, text_rev := s.text_rev + 1 }
  else if key.length = 1 && pyIsAlpha key then
    if s.current.length < WORD_LENGTH then
      some { s with current := s.current ++ pyUpper key, text_rev := s.text_rev + 1 }
    else some s
  else some s

/-!
Spec-side evaluator, for the refinement claim: modelled from §4.1 of
the specification, word for word, over a "remaining" list of answer
letters carrying explicit consumed marks.  It is compared with the
source-side `evaluate_guess` by `C2_two_pass_refinement`.
-/

/-- Modelled from the spec: "Make a mutable copy of the answer's
letters, call it `remaining`" — each letter paired with a consumed
mark, initially cleared. -/
def specRemaining0 (answer : List Char) : List (Char × Bool) :=
  answer.map (fun a => (a, false))

/-- Modelled from the spec, pass 1: "for each position i where
`guess[i] == answer[i]`, set verdict[i] = `Correct`" (all other
positions were initialized to `Absent`). -/
def specPass1 (guess answer : List Char) : List Status :=
  List.zipWith (fun g a => if g = a then Status.correct else Status.absent) guess answer

/-- Modelled from the spec, pass 1: "mark `remaining[i]` as consumed
(so it cannot be reused in pass 2)" at the exact-match positions. -/
def specMark1 (guess answer : List Char) : List (Char × Bool) :=
  List.zipWith (fun g a => (a, decide (g = a))) guess answer

/-- Modelled from the spec: "`guess[i]` exists among the
*not-yet-consumed* letters of `remaining`". -/
def specAvail (c : Char) (rem : List (Char × Bool)) : Bool :=
  rem.any (fun p => !p.2 && p.1 = c)

/-- Modelled from the spec: "consume that one occurrence of the letter
from `remaining`" — scanning left to right, the first unconsumed
occurrence is marked consumed. -/
def specConsume (c : Char) : List (Char × Bool) → List (Char × Bool)
  | [] => []
  | (a, used) :: rest =>
      if !used && a = c then (a, true) :: rest else (a, used) :: specConsume c rest

/-- Modelled from the spec, pass 2: "for each position i not already
`Correct`, if `guess[i]` exists among the not-yet-consumed letters of
`remaining` …, set verdict[i] = `Present` and consume that one
occurrence …. Otherwise leave as `Absent`." -/
def specPass2 : List Char → List Status → List (Char × Bool) → List Status
  | g :: gs, v :: vs, rem =>
      if v = Status.correct then v :: specPass2 gs vs rem
      else if specAvail g rem then Status.present :: specPass2 gs vs (specConsume g rem)
      else Status.absent :: specPass2 gs vs rem
  | _, _, _ => []

/-- Modelled from the spec, §4.1 in full: pass 1 then pass 2 over the
initialized remaining list. -/
def spec_evaluate (guess answer : List Char) : List Status :=
  specPass2 guess (specPass1 guess answer) (specMark1 guess answer)

/-- The consumed-marks view of a remaining list as the source
represents it: a consumed letter is the Python `None`. -/
def maskRem (rem : List (Char × Bool)) : List (Option Char) :=
  rem.map (fun p => if p.2 then none else some p.1)

/-- Number of positions whose guess letter is `L` and whose verdict is
`correct` or `present` (walking guess and verdict row in lockstep). -/
def hitCount : List Char → List Status → Char → Nat
  | g :: gs, v :: vs, L =>
      (if g = L ∧ v ≠ Status.absent then 1 else 0) + hitCount gs vs L
  | _, _, _ => 0

/-- Number of unconsumed occurrences of a letter in a remaining list. -/
def someCount : List (Option Char) → Char → Nat
  | [], _ => 0
  | x :: xs, c => (if x = some c then 1 else 0) + someCount xs c

/-- A trivially-false injected dictionary predicate, for concrete
instances. -/
def noZipf : List Char → Bool := fun _ => false

/-- A concrete terminal (won) round state. -/
def sampleWonState : WState where
  answer := "CRANE".data
  guesses := ["CRANE".data]
  feedback := [[.correct, .correct, .correct, .correct, .correct]]
  current := []
  key_status := fun _ => Status.unused
  game_over := true
  won := true
  error := ""
  strict := true
  text_rev := 3

/-- A concrete in-progress round state with a too-short input. -/
def sampleShortState : WState where
  answer := "CRANE".data
  guesses := []
  feedback := []
  current := "AB".data
  key_status := fun _ => Status.unused
  game_over := false
  won := false
  error := ""
  strict := true
  text_rev := 0

/-- A concrete in-progress round state whose input is the (lowercase)
answer, with strict validation off. -/
def sampleReadyState : WState where
  answer := "CRANE".data
  guesses := []
  feedback := []
  current := "crane".data
  key_status := fun _ => Status.unused
  game_over := false
  won := false
  error := ""
  strict := false
  text_rev := 0

/-! ### Character-level helper lemmas -/

theorem char_toNat_ofNat (n : Nat) (h : n < 55296) : (Char.ofNat n).toNat = n := by
  have hv : n.isValidChar := Or.inl h
  simp [Char.ofNat, hv, Char.ofNatAux, Char.toNat, UInt32.ofNat', UInt32.toNat,
    BitVec.toNat_ofNatLt]

theorem char_le_iff_toNat {a b : Char} : a ≤ b ↔ a.toNat ≤ b.toNat := by
  rw [Char.le_def, UInt32.le_def]
  exact BitVec.le_def

theorem toUpper_eq_of_lower {c : Char} (h : 97 ≤ c.toNat ∧ c.toNat ≤ 122) :
    c.toUpper = Char.ofNat (c.toNat - 32) := by
  simp only [Char.toUpper]
  rw [if_pos ⟨h.1, h.2⟩]

theorem toUpper_eq_of_not_lower {c : Char} (h : ¬(97 ≤ c.toNat ∧ c.toNat ≤ 122)) :
    c.toUpper = c := by
  simp only [Char.toUpper]
  rw [if_neg]
  exact fun hc => h ⟨hc.1, hc.2⟩

theorem toUpper_toUpper (c : Char) : c.toUpper.toUpper = c.toUpper := by
  by_cases h : 97 ≤ c.toNat ∧ c.toNat ≤ 122
  · rw [toUpper_eq_of_lower h]
    apply toUpper_eq_of_not_lower
    rw [char_toNat_ofNat _ (by omega)]
    omega
  · rw [toUpper_eq_of_not_lower h, toUpper_eq_of_not_lower h]

theorem toUpper_of_isUpperChar {c : Char} (h : isUpperChar c = true) : c.toUpper = c := by
  have h1 : 'A' ≤ c ∧ c ≤ 'Z' := by simpa [isUpperChar] using h
  have h2 : 65 ≤ c.toNat := by
    have := char_le_iff_toNat.mp h1.1
    simpa using this
  have h3 : c.toNat ≤ 90 := by
    have := char_le_iff_toNat.mp h1.2
    simpa using this
  exact toUpper_eq_of_not_lower (by omega)

theorem pyUpper_idem (l : List Char) : pyUpper (pyUpper l) = pyUpper l := by
  induction l with
  | nil => rfl
  | cons c l ih =>
      show c.toUpper.toUpper :: pyUpper (pyUpper l) = c.toUpper :: pyUpper l
      rw [toUpper_toUpper, ih]

theorem pyUpper_of_upper {l : List Char} (h : l.all isUpperChar = true) : pyUpper l = l := by
  induction l with
  | nil => rfl
  | cons c l ih =>
      rw [List.all_cons, Bool.and_eq_true] at h
      show c.toUpper :: pyUpper l = c :: l
      rw [toUpper_of_isUpperChar h.1, ih h.2]

theorem pyUpper_length (l : List Char) : (pyUpper l).length = l.length :=
  List.length_map l Char.toUpper

/-! ### Evaluator lemmas -/

theorem greens_self (as : List Char) :
    greens as as = (List.replicate as.length Status.correct, List.replicate as.length none) := by
  induction as with
  | nil => rfl
  | cons a as ih => simp [greens, ih, List.replicate]

theorem yellows_all_correct (gs : List Char) (rem : List (Option Char)) :
    yellows gs (List.replicate gs.length Status.correct) rem
      = List.replicate gs.length Status.correct := by
  induction gs generalizing rem with
  | nil => rfl
  | cons g gs ih => simp [yellows, List.replicate, ih]

/-- C7: for every uppercase letter sequence `answer` of the required
word length, `evaluate_guess(answer, answer)` is all `correct`. -/
theorem C7_self_eval_all_correct (a : List Char) (hup : a.all isUpperChar = true)
    (hlen : a.length = WORD_LENGTH) :
    evaluate_guess a a = some (List.replicate WORD_LENGTH Status.correct) := by
  unfold evaluate_guess
  rw [pyUpper_of_upper hup, if_neg (by omega)]
  have ht : a.take WORD_LENGTH = a := by rw [← hlen]; exact a.take_length
  simp only [ht, greens_self]
  rw [yellows_all_correct, hlen]

/-- C7 witness: the theorem applied to the concrete answer "CRANE". -/
theorem C7_self_eval_all_correct_witness :
    evaluate_guess "CRANE".data "CRANE".data
      = some (List.replicate WORD_LENGTH Status.correct) :=
  C7_self_eval_all_correct "CRANE".data (by decide) (by decide)

/-- C8: the spec's two worked examples, evaluated on the source
evaluator. -/
theorem C8_worked_examples :
    evaluate_guess "RANCE".data "CRANE".data
        = some [.present, .present, .present, .present, .correct]
    ∧ evaluate_guess "ERROR".data "BERRY".data
        = some [.present, .present, .correct, .absent, .absent] := by
  constructor <;> decide

/-- C9 counterexample: a guess of length 6 against an answer of length
5 — the lengths differ, yet `evaluate_guess` succeeds (no failure), so
the operation does not signal an error on every length mismatch. -/
theorem C9_counterexample :
    ("ABCDEF".data.length ≠ "CRANE".data.length)
      ∧ (evaluate_guess "ABCDEF".data "CRANE".data).isSome = true := by
  constructor <;> decide

/-- C9 amended: `evaluate_guess` fails exactly when either argument is
shorter than `WORD_LENGTH`; two differing lengths both at least
`WORD_LENGTH` succeed — no error is signalled on such a mismatch (only
the first `WORD_LENGTH` guess positions are evaluated, while every
answer character stays visible to the Present-matching scan). -/
theorem C9_none_iff_short (g a : List Char) :
    evaluate_guess g a = none ↔ g.length < WORD_LENGTH ∨ a.length < WORD_LENGTH := by
  unfold evaluate_guess
  simp only [pyUpper_length]
  split_ifs with h
  · simp [h]
  · simp [h]

/-- C10: `evaluate_guess` uppercases its arguments, so on alphabetic
inputs of the required length it is case-insensitive. -/
theorem C10_case_insensitive (g a : List Char)
    (hg : pyIsAlpha g = true) (ha : pyIsAlpha a = true)
    (hgl : g.length = WORD_LENGTH) (hal : a.length = WORD_LENGTH) :
    evaluate_guess g a = evaluate_guess (pyUpper g) (pyUpper a) := by
  unfold evaluate_guess
  simp only [pyUpper_idem]

/-! ### Counting lemmas for the duplicate-letter bound -/

theorem hitCount_cons (g : Char) (gs : List Char) (v : Status) (vs : List Status)
    (L : Char) :
    hitCount (g :: gs) (v :: vs) L
      = (if g = L ∧ v ≠ Status.absent then 1 else 0) + hitCount gs vs L := rfl

theorem someCount_cons (x : Option Char) (xs : List (Option Char)) (c : Char) :
    someCount (x :: xs) c = (if x = some c then 1 else 0) + someCount xs c := rfl

theorem someCount_consumeFirst {rem : List (Option Char)} {c : Char}
    (h : some c ∈ rem) (L : Char) :
    (if c = L then 1 else 0) + someCount (consumeFirst rem c) L = someCount rem L := by
  induction rem with
  | nil => cases h
  | cons x xs ih =>
      by_cases hx : x = some c
      · subst hx
        rw [consumeFirst, if_pos rfl, someCount_cons, someCount_cons]
        by_cases hcL : c = L
        · subst hcL
          simp
        · simp [hcL, Option.some.injEq]
      · have h' : some c ∈ xs := by
          rcases List.mem_cons.mp h with h0 | h0
          · exact absurd h0.symm hx
          · exact h0
        rw [consumeFirst, if_neg hx, someCount_cons, someCount_cons]
        have := ih h'
        omega

theorem greens_split (gs : List Char) (as : List Char) (L : Char) :
    hitCount gs (greens gs as).1 L + someCount (greens gs as).2 L ≤ List.count L as := by
  induction gs generalizing as with
  | nil => simp [greens, hitCount, someCount]
  | cons g gs ih =>
      cases as with
      | nil => simp [greens, hitCount, someCount]
      | cons a as =>
          have hia := ih as
          by_cases hga : g = a
          · subst hga
            by_cases hgL : g = L
            · subst hgL
              simp [greens, hitCount_cons, someCount_cons, List.count_cons]
              omega
            · simp [greens, hitCount_cons, someCount_cons, List.count_cons, hgL]
              omega
          · by_cases haL : a = L
            · subst haL
              simp [greens, hitCount_cons, someCount_cons, List.count_cons, hga]
              omega
            · simp [greens, hitCount_cons, someCount_cons, List.count_cons, hga, haL]
              omega

theorem yellows_le (gs : List Char) (vs : List Status) (rem : List (Option Char))
    (L : Char) :
    hitCount gs (yellows gs vs rem) L ≤ hitCount gs vs L + someCount rem L := by
  induction gs generalizing vs rem with
  | nil => simp [yellows, hitCount]
  | cons g gs ih =>
      cases vs with
      | nil => simp [yellows, hitCount]
      | cons v vs =>
          by_cases hv : v = Status.correct
          · subst hv
            rw [yellows, if_pos rfl, hitCount_cons, hitCount_cons]
            have := ih vs rem
            omega
          · by_cases hmem : (some g) ∈ rem
            · rw [yellows, if_neg hv, if_pos hmem, hitCount_cons, hitCount_cons]
              have h1 := ih vs (consumeFirst rem g)
              have h2 := someCount_consumeFirst hmem L
              by_cases hgL : g = L
              · subst hgL
                simp only [if_pos rfl] at h2
                simp only [ne_eq, reduceCtorEq, not_false_iff, and_true, if_pos rfl]
                omega
              · simp only [if_neg hgL] at h2
                simp only [if_neg (fun hand : _ ∧ _ => hgL hand.1)]
                omega
            · rw [yellows, if_neg hv, if_neg hmem, hitCount_cons, hitCount_cons]
              have := ih vs rem
              omega

theorem someCount_append (xs ys : List (Option Char)) (L : Char) :
    someCount (xs ++ ys) L = someCount xs L + someCount ys L := by
  induction xs with
  | nil =>
      show someCount ys L = someCount [] L + someCount ys L
      rw [someCount]
      omega
  | cons x xs ih =>
      rw [List.cons_append, someCount_cons, someCount_cons, ih]
      omega

theorem someCount_map_some (l : List Char) (L : Char) :
    someCount (l.map some) L = List.count L l := by
  induction l with
  | nil => rfl
  | cons c l ih =>
      rw [List.map_cons, someCount_cons, List.count_cons, ih]
      by_cases hcL : c = L
      · subst hcL
        simp
        omega
      · simp [hcL]

/-- C1: for equal-length uppercase guess and answer, the number of
positions whose verdict is `correct` or `present` and whose guess
letter is `L` never exceeds the number of occurrences of `L` in the
answer. -/
theorem C1_letter_hit_bound (g a : List Char) (L : Char)
    (hg : g.all isUpperChar = true) (ha : a.all isUpperChar = true)
    (hlen : g.length = a.length) (vs : List Status)
    (hev : evaluate_guess g a = some vs) :
    hitCount (g.take WORD_LENGTH) vs L ≤ List.count L a := by
  simp only [evaluate_guess] at hev
  rw [pyUpper_of_upper hg, pyUpper_of_upper ha] at hev
  split_ifs at hev with h
  case neg =>
    rw [Option.some_inj] at hev
    subst hev
    have h1 := yellows_le (g.take WORD_LENGTH)
      (greens (g.take WORD_LENGTH) (a.take WORD_LENGTH)).1
      ((greens (g.take WORD_LENGTH) (a.take WORD_LENGTH)).2
        ++ (a.drop WORD_LENGTH).map some) L
    have h2 := greens_split (g.take WORD_LENGTH) (a.take WORD_LENGTH) L
    have h3 := someCount_append (greens (g.take WORD_LENGTH) (a.take WORD_LENGTH)).2
      ((a.drop WORD_LENGTH).map some) L
    have h4 := someCount_map_some (a.drop WORD_LENGTH) L
    have h5 : List.count L (a.take WORD_LENGTH) + List.count L (a.drop WORD_LENGTH)
        = List.count L a := by
      rw [← List.count_append, List.take_append_drop]
    omega

/-- C1 witness: the bound at the concrete repeated-letter example,
guess "ERROR" against answer "BERRY" at letter 'R'. -/
theorem C1_letter_hit_bound_witness :
    hitCount ("ERROR".data.take WORD_LENGTH)
      [.present, .present, .correct, .absent, .absent] 'R'
      ≤ List.count 'R' "BERRY".data :=
  C1_letter_hit_bound "ERROR".data "BERRY".data 'R' (by decide) (by decide)
    (by decide) _ (by decide)

/-! ### Refinement of the spec-side two-pass algorithm -/

theorem specPass1_greens (g a : List Char) : specPass1 g a = (greens g a).1 := by
  induction g generalizing a with
  | nil => cases a <;> rfl
  | cons gc gs ih =>
      cases a with
      | nil => rfl
      | cons ac as =>
          by_cases h : gc = ac
          · simp [specPass1, greens, h, List.zipWith, ← ih]
          · simp [specPass1, greens, h, List.zipWith, ← ih]

theorem maskRem_specMark1 (g a : List Char) :
    maskRem (specMark1 g a) = (greens g a).2 := by
  induction g generalizing a with
  | nil => cases a <;> rfl
  | cons gc gs ih =>
      cases a with
      | nil => rfl
      | cons ac as =>
          by_cases h : gc = ac
          · simp [specMark1, maskRem, greens, h, List.zipWith, ← ih]
          · simp [specMark1, maskRem, greens, h, List.zipWith, ← ih]

theorem maskRem_consumed (a : Char) (rest : List (Char × Bool)) :
    maskRem ((a, true) :: rest) = none :: maskRem rest := rfl

theorem maskRem_free (a : Char) (rest : List (Char × Bool)) :
    maskRem ((a, false) :: rest) = some a :: maskRem rest := rfl

theorem specAvail_iff (c : Char) (rem : List (Char × Bool)) :
    specAvail c rem = true ↔ some c ∈ maskRem rem := by
  induction rem with
  | nil => simp [specAvail, maskRem]
  | cons p rest ih =>
      obtain ⟨a, u⟩ := p
      cases u with
      | true =>
          have h1 : specAvail c ((a, true) :: rest) = specAvail c rest := by
            simp [specAvail]
          rw [h1, maskRem_consumed, ih]
          simp
      | false =>
          have h1 : specAvail c ((a, false) :: rest)
              = (decide (a = c) || specAvail c rest) := by
            simp [specAvail]
          rw [h1, maskRem_free]
          simp only [List.mem_cons, Bool.or_eq_true, decide_eq_true_eq, ih,
            Option.some.injEq]
          exact or_congr ⟨Eq.symm, Eq.symm⟩ Iff.rfl

theorem consumeFirst_maskRem (c : Char) (rem : List (Char × Bool)) :
    consumeFirst (maskRem rem) c = maskRem (specConsume c rem) := by
  induction rem with
  | nil => rfl
  | cons p rest ih =>
      obtain ⟨a, u⟩ := p
      cases u with
      | true =>
          have h1 : specConsume c ((a, true) :: rest) = (a, true) :: specConsume c rest := by
            simp [specConsume]
          rw [maskRem_consumed, consumeFirst, if_neg (by simp), ih, h1,
            maskRem_consumed]
      | false =>
          by_cases h : a = c
          · subst h
            have h1 : specConsume a ((a, false) :: rest) = (a, true) :: rest := by
              simp [specConsume]
            rw [maskRem_free, consumeFirst, if_pos rfl, h1, maskRem_consumed]
          · have h1 : specConsume c ((a, false) :: rest)
                = (a, false) :: specConsume c rest := by
              simp [specConsume, h]
            rw [maskRem_free, consumeFirst, if_neg (by simp [h]), ih, h1,
              maskRem_free]

theorem greens_verdicts (gs as : List Char) :
    ∀ v ∈ (greens gs as).1, v = Status.correct ∨ v = Status.absent := by
  induction gs generalizing as with
  | nil => cases as <;> simp [greens]
  | cons g gs ih =>
      cases as with
      | nil => simp [greens]
      | cons a as =>
          by_cases h : g = a
          · simp only [greens, h, if_pos rfl]
            intro v hv
            rcases List.mem_cons.mp hv with h0 | h0
            · exact Or.inl h0
            · exact ih as v h0
          · simp only [greens, if_neg h]
            intro v hv
            rcases List.mem_cons.mp hv with h0 | h0
            · exact Or.inr h0
            · exact ih as v h0

theorem yellows_spec (gs : List Char) (vs : List Status) (rem : List (Char × Bool))
    (hvs : ∀ v ∈ vs, v = Status.correct ∨ v = Status.absent) :
    yellows gs vs (maskRem rem) = specPass2 gs vs rem := by
  induction gs generalizing vs rem with
  | nil => cases vs <;> rfl
  | cons g gs ih =>
      cases vs with
      | nil => rfl
      | cons v vs =>
          have hv' : ∀ w ∈ vs, w = Status.correct ∨ w = Status.absent :=
            fun w hw => hvs w (List.mem_cons_of_mem v hw)
          by_cases hv : v = Status.correct
          · rw [yellows, if_pos hv, specPass2, if_pos hv, ih vs rem hv']
          · by_cases hav : specAvail g rem = true
            · have hmem : some g ∈ maskRem rem := (specAvail_iff g rem).mp hav
              rw [yellows, if_neg hv, if_pos hmem, specPass2, if_neg hv, if_pos hav,
                consumeFirst_maskRem, ih vs (specConsume g rem) hv']
            · have hmem : some g ∉ maskRem rem :=
                fun hm => hav ((specAvail_iff g rem).mpr hm)
              have habs : v = Status.absent :=
                ((hvs v (List.mem_cons_self v vs)).resolve_left hv)
              rw [yellows, if_neg hv, if_neg hmem, specPass2, if_neg hv,
                if_neg (by simpa using hav), ih vs rem hv', habs]

/-- C2: on inputs satisfying the spec's precondition (equal-size
uppercase sequences of the required length), the source evaluator
computes exactly the spec's two-pass algorithm: pass 1 marks a position
`correct` iff the guess and answer letters coincide there and consumes
that answer letter; pass 2 marks a non-correct position `present` iff
its guess letter still occurs among the unconsumed answer letters,
consuming the first such occurrence left to right, and `absent`
otherwise. -/
theorem C2_two_pass_refinement (g a : List Char)
    (hg : g.all isUpperChar = true) (ha : a.all isUpperChar = true)
    (hgl : g.length = WORD_LENGTH) (hal : a.length = WORD_LENGTH) :
    evaluate_guess g a = some (spec_evaluate g a) := by
  simp only [evaluate_guess]
  rw [pyUpper_of_upper hg, pyUpper_of_upper ha, if_neg (by omega)]
  have htg : g.take WORD_LENGTH = g := by rw [← hgl]; exact g.take_length
  have hta : a.take WORD_LENGTH = a := by rw [← hal]; exact a.take_length
  have hda : a.drop WORD_LENGTH = [] := by rw [← hal]; exact a.drop_length
  rw [htg, hta, hda, List.map_nil, List.append_nil]
  unfold spec_evaluate
  have hverd : ∀ v ∈ specPass1 g a, v = Status.correct ∨ v = Status.absent := by
    rw [specPass1_greens]
    exact greens_verdicts g a
  rw [← yellows_spec g (specPass1 g a) (specMark1 g a) hverd, maskRem_specMark1,
    specPass1_greens]

/-- C2 witness: the refinement at the concrete pair guess "RANCE",
answer "CRANE". -/
theorem C2_two_pass_refinement_witness :
    evaluate_guess "RANCE".data "CRANE".data
      = some (spec_evaluate "RANCE".data "CRANE".data) :=
  C2_two_pass_refinement "RANCE".data "CRANE".data (by decide) (by decide)
    (by decide) (by decide)

/-! ### Keyboard aggregator monotonicity -/

theorem updOne_cases (ks : Char → Status) (p : Char × Status) (c : Char) :
    updOne ks p c = ks c ∨ priority (ks c) < priority (updOne ks p c) := by
  unfold updOne
  by_cases h : c = p.1 ∧ priority (ks p.1) < priority p.2
  · rw [if_pos h]
    right
    rw [h.1]
    exact h.2
  · rw [if_neg h]
    left
    rfl

theorem foldl_updOne_cases (l : List (Char × Status)) (ks : Char → Status) (c : Char) :
    (l.foldl updOne ks) c = ks c
      ∨ priority (ks c) < priority ((l.foldl updOne ks) c) := by
  induction l generalizing ks with
  | nil => exact Or.inl rfl
  | cons p l ih =>
      rw [List.foldl_cons]
      rcases ih (updOne ks p) with h | h
      · rcases updOne_cases ks p c with h0 | h0
        · exact Or.inl (h.trans h0)
        · right
          rw [h]
          exact h0
      · rcases updOne_cases ks p c with h0 | h0
        · right
          rw [h0] at h
          exact h
        · exact Or.inr (h0.trans h)

/-- C6: folding a guess and its verdict row into the keyboard status
never lowers any letter's priority, and a letter's recorded status
changes only to one of strictly higher priority. -/
theorem C6_key_status_monotone (ks : Char → Status) (guess : List Char)
    (statuses : List Status) (c : Char) :
    priority (ks c) ≤ priority (update_key_statuses ks guess statuses c)
    ∧ (update_key_statuses ks guess statuses c ≠ ks c →
        priority (ks c) < priority (update_key_statuses ks guess statuses c)) := by
  unfold update_key_statuses
  rcases foldl_updOne_cases (guess.zip statuses) ks c with h | h
  · rw [h]
    exact ⟨le_refl _, fun hne => absurd rfl hne⟩
  · exact ⟨le_of_lt h, fun _ => h⟩

/-- C6 witness: the monotonicity conjunction at a concrete status map,
guess, verdict row, and letter. -/
theorem C6_key_status_monotone_witness :
    priority ((fun _ => Status.absent) 'R')
        ≤ priority (update_key_statuses (fun _ => Status.absent) "ERROR".data
            [.present, .present, .correct, .absent, .absent] 'R')
    ∧ (update_key_statuses (fun _ => Status.absent) "ERROR".data
          [.present, .present, .correct, .absent, .absent] 'R'
            ≠ (fun _ => Status.absent) 'R' →
        priority ((fun _ => Status.absent) 'R')
          < priority (update_key_statuses (fun _ => Status.absent) "ERROR".data
              [.present, .present, .correct, .absent, .absent] 'R')) :=
  C6_key_status_monotone (fun _ => Status.absent) "ERROR".data
    [.present, .present, .correct, .absent, .absent] 'R'

/-! ### State machine: terminal states -/

/-- C3 counterexample: in a concrete terminal (won) state with an empty
user-facing message, `wordle_commit_guess` and `wordle_handle_keypress`
(letter and backspace) return the state completely unchanged and leave
the message empty — no `GameAlreadyOver` message is set, contradicting
the claim that such a message is produced. -/
theorem C3_counterexample :
    wordle_commit_guess false noZipf sampleWonState = some sampleWonState
    ∧ wordle_handle_keypress false noZipf "A".data sampleWonState = some sampleWonState
    ∧ wordle_handle_keypress false noZipf "⌫".data sampleWonState = some sampleWonState
    ∧ sampleWonState.error = "" :=
  ⟨rfl, rfl, rfl, rfl⟩

/-- C3 amended: in a terminal state, `wordle_commit_guess` and
`wordle_handle_keypress` (for every key, hence for letters, backspace
and ENTER-submit) are complete no-ops: the state — message included —
is returned unchanged, and no message of any kind is set. -/
theorem C3_terminal_noop (wfAvail : Bool) (zipfOk : List Char → Bool)
    (key : List Char) (s : WState) (h : s.game_over = true) :
    wordle_commit_guess wfAvail zipfOk s = some s
    ∧ wordle_handle_keypress wfAvail zipfOk key s = some s := by
  constructor
  · unfold wordle_commit_guess
    rw [if_pos h]
  · unfold wordle_handle_keypress
    rw [if_pos h]

/-- C3 witness: the amended no-op statement at the concrete terminal
state. -/
theorem C3_terminal_noop_witness :
    wordle_commit_guess true noZipf sampleWonState = some sampleWonState
    ∧ wordle_handle_keypress true noZipf "B".data sampleWonState = some sampleWonState :=
  C3_terminal_noop true noZipf "B".data sampleWonState rfl

/-! ### State machine: submit -/

theorem evaluate_defined (g a : List Char) (hg : WORD_LENGTH ≤ g.length)
    (ha : WORD_LENGTH ≤ a.length) : ∃ vs, evaluate_guess g a = some vs := by
  simp only [evaluate_guess, pyUpper_length]
  rw [if_neg (by omega)]
  exact ⟨_, rfl⟩

/-- C4: in a non-terminal state, a submission rejected by validation —
wrong length, non-alphabetic, or (in strict mode) not accepted by the
dictionary predicate — sets a nonempty user-facing error message and
leaves guesses, feedback, keyboard status, current input, terminal and
won flags, and the answer unchanged. -/
theorem C4_reject_no_mutation (wfAvail : Bool) (zipfOk : List Char → Bool) (s : WState)
    (hterm : s.game_over = false)
    (hrej : (pyUpper (pyStrip s.current)).length ≠ WORD_LENGTH
      ∨ pyIsAlpha (pyUpper (pyStrip s.current)) = false
      ∨ (s.strict = true
          ∧ is_english_word wfAvail zipfOk (pyUpper (pyStrip s.current)) = false)) :
    ∃ s2, wordle_commit_guess wfAvail zipfOk s = some s2 ∧ s2.error ≠ ""
      ∧ s2.guesses = s.guesses ∧ s2.feedback = s.feedback
      ∧ s2.key_status = s.key_status ∧ s2.current = s.current
      ∧ s2.game_over = false ∧ s2.won = s.won ∧ s2.answer = s.answer := by
  simp only [wordle_commit_guess, hterm, Bool.false_eq_true, if_false]
  by_cases h1 : (pyUpper (pyStrip s.current)).length ≠ WORD_LENGTH
  · rw [if_pos h1]
    exact ⟨_, rfl, (by decide : ("Not enough letters." : String) ≠ ""),
      rfl, rfl, rfl, rfl, rfl, rfl, rfl⟩
  · rw [if_neg h1]
    by_cases h2 : pyIsAlpha (pyUpper (pyStrip s.current)) = false
    · rw [if_pos (by simp [h2])]
      exact ⟨_, rfl, (by decide : ("Only letters A–Z." : String) ≠ ""),
        rfl, rfl, rfl, rfl, rfl, rfl, rfl⟩
    · have h2' : pyIsAlpha (pyUpper (pyStrip s.current)) = true := by
        revert h2
        cases pyIsAlpha (pyUpper (pyStrip s.current)) <;> simp
      rw [if_neg (by simp [h2'])]
      have h3 : s.strict = true
          ∧ is_english_word wfAvail zipfOk (pyUpper (pyStrip s.current)) = false := by
        rcases hrej with h | h | h
        · exact absurd h h1
        · exact absurd h (by simp [h2'])
        · exact h
      rw [if_pos (by simp [h3.1, h3.2])]
      refine ⟨_, rfl, ?_, rfl, rfl, rfl, rfl, rfl, rfl, rfl⟩
      cases wfAvail
      · exact (by decide :
          ("Install wordfreq to validate English words (pip install wordfreq)." : String)
            ≠ "")
      · exact (by decide : ("Not a valid English word." : String) ≠ "")

/-- C4 witness: the rejection at a concrete non-terminal state whose
current input "AB" is shorter than the required word length. -/
theorem C4_reject_no_mutation_witness :
    ∃ s2, wordle_commit_guess false noZipf sampleShortState = some s2 ∧ s2.error ≠ ""
      ∧ s2.guesses = sampleShortState.guesses
      ∧ s2.feedback = sampleShortState.feedback
      ∧ s2.key_status = sampleShortState.key_status
      ∧ s2.current = sampleShortState.current
      ∧ s2.game_over = false ∧ s2.won = sampleShortState.won
      ∧ s2.answer = sampleShortState.answer :=
  C4_reject_no_mutation false noZipf sampleShortState rfl (Or.inl (by decide))

/-- C5: in a non-terminal state whose input passes validation, submit
appends the normalized guess with its evaluation to the history, folds
the verdicts into the keyboard status, clears the input, and then wins
on an exact match, loses when the history reaches `MAX_GUESSES`, and
otherwise stays in progress. -/
theorem C5_commit_success (wfAvail : Bool) (zipfOk : List Char → Bool) (s : WState)
    (hterm : s.game_over = false)
    (hlen : (pyUpper (pyStrip s.current)).length = WORD_LENGTH)
    (halpha : pyIsAlpha (pyUpper (pyStrip s.current)) = true)
    (hdict : s.strict = true →
      is_english_word wfAvail zipfOk (pyUpper (pyStrip s.current)) = true)
    (hans : s.answer.length = WORD_LENGTH) :
    ∃ vs s2, evaluate_guess (pyUpper (pyStrip s.current)) s.answer = some vs
      ∧ wordle_commit_guess wfAvail zipfOk s = some s2
      ∧ s2.guesses = s.guesses ++ [pyUpper (pyStrip s.current)]
      ∧ s2.feedback = s.feedback ++ [vs]
      ∧ s2.key_status = update_key_statuses s.key_status (pyUpper (pyStrip s.current)) vs
      ∧ s2.current = [] ∧ s2.answer = s.answer ∧ s2.error = ""
      ∧ (pyUpper (pyStrip s.current) = s.answer →
          s2.game_over = true ∧ s2.won = true)
      ∧ (pyUpper (pyStrip s.current) ≠ s.answer →
          MAX_GUESSES ≤ s.guesses.length + 1 →
          s2.game_over = true ∧ s2.won = false)
      ∧ (pyUpper (pyStrip s.current) ≠ s.answer →
          s.guesses.length + 1 < MAX_GUESSES →
          s2.game_over = false ∧ s2.won = s.won) := by
  obtain ⟨vs, hev⟩ :=
    evaluate_defined (pyUpper (pyStrip s.current)) s.answer (le_of_eq hlen.symm)
      (le_of_eq hans.symm)
  refine ⟨vs, ?_⟩
  simp only [wordle_commit_guess, hterm, Bool.false_eq_true, if_false]
  rw [if_neg (by simp [hlen])]
  rw [if_neg (by simp [halpha])]
  rw [if_neg (by
    cases hs : s.strict with
    | false => simp
    | true => simp [hdict hs])]
  rw [hev]
  simp only []
  have hlen1 : (s.guesses ++ [pyUpper (pyStrip s.current)]).length
      = s.guesses.length + 1 := by simp
  by_cases hwin : pyUpper (pyStrip s.current) = s.answer
  · rw [if_pos hwin]
    exact ⟨_, trivial, rfl, rfl, rfl, rfl, rfl, rfl, rfl,
      fun _ => ⟨rfl, rfl⟩, fun h => absurd hwin h, fun h => absurd hwin h⟩
  · rw [if_neg hwin]
    by_cases hmax : MAX_GUESSES ≤ (s.guesses ++ [pyUpper (pyStrip s.current)]).length
    · rw [if_pos hmax]
      rw [hlen1] at hmax
      exact ⟨_, trivial, rfl, rfl, rfl, rfl, rfl, rfl, rfl,
        fun h => absurd h hwin, fun _ _ => ⟨rfl, rfl⟩, fun _ h => absurd hmax (by omega)⟩
    · rw [if_neg hmax]
      rw [hlen1] at hmax
      exact ⟨_, trivial, rfl, rfl, rfl, rfl, rfl, rfl, rfl,
        fun h => absurd h hwin, fun _ h => absurd h hmax, fun _ _ => ⟨rfl, rfl⟩⟩

/-- C5 witness: a successful submission at a concrete state whose
lowercase input "crane" matches the answer "CRANE", winning the
round. -/
theorem C5_commit_success_witness :
    ∃ vs s2,
      evaluate_guess (pyUpper (pyStrip sampleReadyState.current))
          sampleReadyState.answer = some vs
      ∧ wordle_commit_guess false noZipf sampleReadyState = some s2
      ∧ s2.guesses = sampleReadyState.guesses
          ++ [pyUpper (pyStrip sampleReadyState.current)]
      ∧ s2.feedback = sampleReadyState.feedback ++ [vs]
      ∧ s2.key_status = update_key_statuses sampleReadyState.key_status
          (pyUpper (pyStrip sampleReadyState.current)) vs
      ∧ s2.current = [] ∧ s2.answer = sampleReadyState.answer ∧ s2.error = ""
      ∧ (pyUpper (pyStrip sampleReadyState.current) = sampleReadyState.answer →
          s2.game_over = true ∧ s2.won = true)
      ∧ (pyUpper (pyStrip sampleReadyState.current) ≠ sampleReadyState.answer →
          MAX_GUESSES ≤ sampleReadyState.guesses.length + 1 →
          s2.game_over = true ∧ s2.won = false)
      ∧ (pyUpper (pyStrip sampleReadyState.current) ≠ sampleReadyState.answer →
          sampleReadyState.guesses.length + 1 < MAX_GUESSES →
          s2.game_over = false ∧ s2.won = sampleReadyState.won) :=
  C5_commit_success false noZipf sampleReadyState rfl (by decide) (by decide)
    (fun h => absurd h (by decide)) (by decide)

/-- C10 witness: the theorem applied to the lowercase guess "crane". -/
theorem C10_case_insensitive_witness :
    evaluate_guess "crane".data "CRANE".data
      = evaluate_guess (pyUpper "crane".data) (pyUpper "CRANE".data) :=
  C10_case_insensitive "crane".data "CRANE".data (by decide) (by decide)
    (by decide) (by decide)

end Wordle
